import Mathlib

/-!
Verification development for the diff application engine of
`toolregistry_hub` (`src/toolregistry_hub/utils/diff_utility.py`).

The Python code is shallowly embedded: file contents are modelled as the
list of their lines (each line keeping its trailing newline, as produced
by reading an LF-terminated text file line by line), the parsers and the
streaming applicators are translated function by function, and the
boolean-returning `replace_by_*` entry points become pure cores that
return the new file content (`Option String`, `none` standing for the
`False` return caused by the `ValueError` raised on an invalid hunk-line
tag; operating-system I/O failures are outside the embedding).
-/

namespace DiffUtility

/-- ASCII decimal digit, modelling `\d` of the Python regexes on the
ASCII inputs this module is used with. -/
def isAsciiDigit (c : Char) : Bool :=
  '0' ≤ c && c ≤ '9'

/-- ASCII whitespace, modelling `\s` of the Python regexes on ASCII
input. -/
def isPyWs (c : Char) : Bool :=
  c = ' ' || c = '\t' || c = '\n' || c = '\r' || c = '\x0b' || c = '\x0c'

/-- First character of a string, if any (Python `s.startswith(c)` for a
single character `c` on a nonempty string checks exactly this). -/
def headChar (s : String) : Option Char :=
  s.data.head?

/-- `True` iff the string is nonempty and starts with `c`. -/
def headCharIs (c : Char) (s : String) : Bool :=
  headChar s = some c

/-- Python `s[1:]`: drop the first character. -/
def strTail (s : String) : String :=
  String.mk (s.data.drop 1)

/-- `True` iff the string ends with a newline (Python
`s.endswith("\n")`). -/
def endsWithNl (s : String) : Bool :=
  s.data.getLast? = some '\n'

/-- The applicator's normalisation of an added line: append a newline
unless the text already ends with one (lines 365-367 of
`diff_utility.py`). -/
def ensureNl (s : String) : String :=
  if endsWithNl s then s else s ++ "\n"

/-- Drop a single trailing newline character, if present.  This is how a
Python `re` match of a `$`-anchored pattern relates to the raw line: `$`
matches either at the end of the string or just before one final
newline. -/
def dropFinalNl (s : String) : String :=
  match s.data.reverse with
  | '\n' :: rest => String.mk rest.reverse
  | _ => s

/-- Helper of `splitKeepends`: `acc` holds the characters of the current
(unterminated) line in reverse. -/
def splitKeepAux : List Char → List Char → List String
  | acc, [] => if acc.isEmpty then [] else [String.mk acc.reverse]
  | acc, c :: cs =>
    if c = '\n' then String.mk (acc.reverse ++ ['\n']) :: splitKeepAux [] cs
    else splitKeepAux (c :: acc) cs

/-- Python `s.splitlines(keepends=True)` restricted to LF-terminated
text, which is also how `for line in file` yields the lines of the file
once universal-newline translation has happened: every line keeps its
trailing newline, a final unterminated line is kept as it is, and the
empty string has no lines. -/
def splitKeepends (s : String) : List String :=
  splitKeepAux [] s.data

/-- Numeric value of a digit run (`int(...)` on the regex group). -/
def natOfDigits (l : List Char) : Nat :=
  l.foldl (fun a c => 10 * a + (c.toNat - '0'.toNat)) 0

/-- Longest prefix of characters satisfying `p`, together with the
remainder. -/
def spanP (p : Char → Bool) : List Char → List Char × List Char
  | [] => ([], [])
  | c :: cs =>
    if p c then
      let (a, b) := spanP p cs
      (c :: a, b)
    else ([], c :: cs)

/-- The `\s?` step of the prefix grammar: consume at most one
whitespace character. -/
def dropOneWs : List Char → List Char
  | c :: t => if isPyWs c then t else c :: t
  | [] => []

/-- Modelled from the spec: the function `strip_line_number_prefix`
(imported in `diff_utility.py` from `.file_parsing` but absent from the
sources given) strips one leading line-number prefix matching the
grammar `^\d+\s*\|\s?` — a nonempty digit run, optional whitespace, a
`|`, and at most one further whitespace character — and leaves a line
without such a prefix unaltered. -/
def strip_line_number_prefix (line : String) : String :=
  let (ds, r1) := spanP isAsciiDigit line.data
  if ds.isEmpty then line
  else
    let r2 := (spanP isPyWs r1).2
    if r2.head? = some '|' then String.mk (dropOneWs r2.tail) else line

/-- Decides whether a line carries a line-number prefix of the grammar
`^\d+\s*\|\s?`. -/
def hasLineNumberTag (line : String) : Bool :=
  let (ds, r1) := spanP isAsciiDigit line.data
  if ds.isEmpty then false
  else (spanP isPyWs r1).2.head? = some '|'

/-! ## Unified diff parsing (`Hunk`, `_parse_unified_diff`) -/

/-- One unified-diff hunk, as in the `Hunk` dataclass: the four header
numbers and the raw tagged lines of the hunk body. -/
structure Hunk where
  orig_start : Nat
  orig_len : Nat
  new_start : Nat
  new_len : Nat
  lines : List String
  deriving Repr, DecidableEq

/-- Optional `,<len>` part of a hunk header; a missing length defaults
to `1` (`int(m.group(2) or 1)`). -/
def parseOptLen : List Char → Nat × List Char
  | ',' :: t =>
    let (ds, r) := spanP isAsciiDigit t
    if ds.isEmpty then (1, ',' :: t) else (natOfDigits ds, r)
  | l => (1, l)

/-- Model of `hunk_regex.match` with the pattern
`^@@ -(\d+)(?:,(\d+))? \+(\d+)(?:,(\d+))? @@`: on success, the four
header numbers (missing lengths already defaulted to 1). -/
def matchHunkHeader (s : String) : Option (Nat × Nat × Nat × Nat) :=
  match s.data with
  | '@' :: '@' :: ' ' :: '-' :: r =>
    let (ds1, r1) := spanP isAsciiDigit r
    if ds1.isEmpty then none
    else
      let (ol, r2) := parseOptLen r1
      match r2 with
      | ' ' :: '+' :: r3 =>
        let (ds2, r4) := spanP isAsciiDigit r3
        if ds2.isEmpty then none
        else
          let (nl, r5) := parseOptLen r4
          match r5 with
          | ' ' :: '@' :: '@' :: _ => some (natOfDigits ds1, ol, natOfDigits ds2, nl)
          | _ => none
      | _ => none
  | _ => none

/-- Inner `while` of `_parse_unified_diff`: after a hunk header has been
seen, collect (prefix-stripped) body lines until the next header; each
header starts a new hunk.  `acc` is the body collected so far, in
reverse. -/
def goHunks (h : Nat × Nat × Nat × Nat) (acc : List String) :
    List String → List Hunk
  | [] => [⟨h.1, h.2.1, h.2.2.1, h.2.2.2, acc.reverse⟩]
  | l :: ls =>
    match matchHunkHeader l with
    | some h2 => ⟨h.1, h.2.1, h.2.2.1, h.2.2.2, acc.reverse⟩ :: goHunks h2 [] ls
    | none => goHunks h ( strip_line_number_prefix l :: acc) ls

/-- Outer loop of `_parse_unified_diff` before the first hunk header:
non-header lines are collected (prefix-stripped) as leading context. -/
def goCtx (acc : List String) : List String → List Hunk × List String
  | [] => ([], acc.reverse)
  | l :: ls =>
    match matchHunkHeader l with
    | some h => (goHunks h [] ls, acc.reverse)
    | none => goCtx ( strip_line_number_prefix l :: acc) ls

/-- `_parse_unified_diff` on an already split line list. -/
def parseUnifiedLines (ls : List String) : List Hunk × List String :=
  goCtx [] ls

/-- `_parse_unified_diff`: parse a unified diff string into hunks and
leading context lines. -/
def parse_unified_diff (diff : String) : List Hunk × List String :=
  parseUnifiedLines (splitKeepends diff)

/-! ## Unified diff application (`replace_by_unified_diff`) -/

/-- The streaming loop of `replace_by_unified_diff` (lines 345-387).
The head of the first argument is the active hunk (`hunk`), `n` is
`orig_line_num`, `i` is `hunk_line_index`; the fourth argument is the
remaining input lines.  Exactly one input line is consumed per step.  A
hunk line with an invalid tag raises `ValueError`, modelled as `none`.
The deletion and addition branches `continue`, skipping both the
`orig_line_num` increment and the hunk-advance check; the other
branches increment `orig_line_num` and then pop the active hunk once
its line index has reached the end of its lines. -/
def applyGo : List Hunk → Nat → Nat → List String → Option (List String)
  | _, _, _, [] => some []
  | [], n, i, line :: rest => (applyGo [] (n + 1) i rest).map (line :: ·)
  | h :: tl, n, i, line :: rest =>
    if h.orig_start ≤ n ∧ n < h.orig_start + h.orig_len ∧ i < h.lines.length then
      if headCharIs ' ' (h.lines.getD i "") then
        if i + 1 ≥ h.lines.length then (applyGo tl (n + 1) 0 rest).map (line :: ·)
        else (applyGo (h :: tl) (n + 1) (i + 1) rest).map (line :: ·)
      else if headCharIs '-' (h.lines.getD i "") then
        applyGo (h :: tl) n (i + 1) rest
      else if headCharIs '+' (h.lines.getD i "") then
        (applyGo (h :: tl) n (i + 1) rest).map (ensureNl (strTail (h.lines.getD i "")) :: ·)
      else none
    else
      if i ≥ h.lines.length then (applyGo tl (n + 1) 0 rest).map (line :: ·)
      else (applyGo (h :: tl) (n + 1) i rest).map (line :: ·)

/-- Pure core of `replace_by_unified_diff`: given the diff text and the
current file content, produce the new file content; `none` models the
`False` return caused by an invalid hunk-line tag.  (I/O errors and the
temp-file mechanics live outside the embedding.) -/
def replace_by_unified_diff (diff content : String) : Option String :=
  let hunks := (parse_unified_diff diff).1
  (applyGo hunks 1 0 (splitKeepends content)).map String.join

/-! ## Conflict diff parsing (`ConflictBlock`, `_parse_conflict_diff`) -/

/-- One git-style conflict block, as in the `ConflictBlock` dataclass. -/
structure ConflictBlock where
  incoming_marker : String
  incoming_lines : List String
  separator : String
  current_lines : List String
  end_marker : String
  deriving Repr, DecidableEq

/-- Model of `start_re.match` with pattern `^<<<<<<< (.+)$`: seven `<`,
a space, then at least one character, none of which may be a newline,
with `$` allowing one final newline on the raw line. -/
def isStartMarker (s : String) : Bool :=
  match (dropFinalNl s).data with
  | '<' :: '<' :: '<' :: '<' :: '<' :: '<' :: '<' :: ' ' :: rest =>
    !rest.isEmpty && rest.all (· ≠ '\n')
  | _ => false

/-- Model of `end_re.match` with pattern `^>>>>>>> (.+)$`. -/
def isEndMarker (s : String) : Bool :=
  match (dropFinalNl s).data with
  | '>' :: '>' :: '>' :: '>' :: '>' :: '>' :: '>' :: ' ' :: rest =>
    !rest.isEmpty && rest.all (· ≠ '\n')
  | _ => false

/-- Model of `sep_re.match` with pattern `^=======$`: the line is
exactly seven `=`, optionally followed by one final newline. -/
def isSepLine (s : String) : Bool :=
  s = "=======" || s = "=======\n"

/-- `m_start.group(0)` for a matching opening-marker line: the matched
text, which is the raw line minus the final newline the `$` stopped
before. -/
def markerText (s : String) : String :=
  dropFinalNl s

/-- Scanner state of `_parse_conflict_diff`: outside any block, inside
the incoming section, or inside the current section.  The accumulators
hold already collected (prefix-stripped) lines in reverse. -/
inductive CMode where
  | scan : CMode
  | inc : String → List String → CMode
  | cur : String → List String → String → List String → CMode

/-- The scanning loop of `_parse_conflict_diff` (lines 463-501): find an
opening marker, collect incoming lines up to the separator, collect
current lines up to the closing marker, emit the block and continue.
Reaching the end of input in the middle of a block (`i >= len(lines)`)
breaks out of the loop, discarding the partial block. -/
def goConflict : CMode → List String → List ConflictBlock
  | _, [] => []
  | .scan, l :: ls =>
    if isStartMarker l then goConflict (.inc (markerText l) []) ls
    else goConflict .scan ls
  | .inc mk acc, l :: ls =>
    if isSepLine l then goConflict (.cur mk acc.reverse l []) ls
    else goConflict (.inc mk ( strip_line_number_prefix l :: acc)) ls
  | .cur mk inc sep acc, l :: ls =>
    if isEndMarker l then
      ⟨mk, inc, sep, acc.reverse, l⟩ :: goConflict .scan ls
    else goConflict (.cur mk inc sep ( strip_line_number_prefix l :: acc)) ls

/-- `_parse_conflict_diff` on an already split line list. -/
def parseConflictLines (ls : List String) : List ConflictBlock :=
  goConflict .scan ls

/-- `_parse_conflict_diff`: parse a conflict diff string into blocks. -/
def parse_conflict_diff (diff : String) : List ConflictBlock :=
  parseConflictLines (splitKeepends diff)

/-! ## Conflict diff application (`replace_by_conflict_diff`) -/

/-- One entry of the `conflict_regions` lookup built by
`replace_by_conflict_diff` (lines 558-574). -/
structure Region where
  incoming_start : Nat
  incoming_end : Nat
  current_lines : List String
  deriving Repr, DecidableEq

/-- Builds `conflict_regions`: the blocks' incoming regions laid out
back to back starting at position `pos` (`current_pos`). -/
def regionsOf : List ConflictBlock → Nat → List Region
  | [], _ => []
  | b :: bs, pos =>
    ⟨pos, pos + b.incoming_lines.length, b.current_lines⟩ ::
      regionsOf bs (pos + b.incoming_lines.length)

/-- The streaming loop of `replace_by_conflict_diff` (lines 580-622):
the head of the region list is `current_region`, `idx` is `line_index`.
A line whose index lies inside the active region is skipped; when the
region's end is reached its `current_lines` are emitted and the region
is popped; all other lines are emitted unchanged. -/
def conflictLoop : List Region → Nat → List String → List String
  | _, _, [] => []
  | [], idx, line :: rest => line :: conflictLoop [] (idx + 1) rest
  | r :: rs, idx, line :: rest =>
    if r.incoming_start ≤ idx ∧ idx < r.incoming_end then
      if idx + 1 ≥ r.incoming_end then
        r.current_lines ++ conflictLoop rs (idx + 1) rest
      else conflictLoop (r :: rs) (idx + 1) rest
    else line :: conflictLoop (r :: rs) (idx + 1) rest

/-- The body of `replace_by_conflict_diff` after parsing: with no
blocks the file is left unchanged (`return True` at line 554);
otherwise the file's lines are run through the region loop. -/
def applyConflictBlocks (blocks : List ConflictBlock) (content : String) : String :=
  if blocks = [] then content
  else String.join (conflictLoop (regionsOf blocks 0) 0 (splitKeepends content))

/-- Pure core of `replace_by_conflict_diff`: given the diff text and
the current file content, produce the new file content.  The pure part
of the Python function cannot raise, so the result is always the
content written by the `True` path; I/O failures live outside the
embedding. -/
def replace_by_conflict_diff (diff content : String) : String :=
  applyConflictBlocks (parse_conflict_diff diff) content

/-! ## Reference parser variants without prefix stripping

These two definitions follow the spec's description of the parsers with
the line-number-prefix stripping factored out: they collect the raw
lines.  The factorisation theorems for C8 compare the source-translated
parsers above against these, showing that stripping is applied exactly
once to every collected line and affects nothing else. -/

/-- Raw-line variant of `goHunks` (spec-side reference). -/
def goHunksRaw (h : Nat × Nat × Nat × Nat) (acc : List String) :
    List String → List Hunk
  | [] => [⟨h.1, h.2.1, h.2.2.1, h.2.2.2, acc.reverse⟩]
  | l :: ls =>
    match matchHunkHeader l with
    | some h2 => ⟨h.1, h.2.1, h.2.2.1, h.2.2.2, acc.reverse⟩ :: goHunksRaw h2 [] ls
    | none => goHunksRaw h (l :: acc) ls

/-- Raw-line variant of `goCtx` (spec-side reference). -/
def goCtxRaw (acc : List String) : List String → List Hunk × List String
  | [] => ([], acc.reverse)
  | l :: ls =>
    match matchHunkHeader l with
    | some h => (goHunksRaw h [] ls, acc.reverse)
    | none => goCtxRaw (l :: acc) ls

/-- Raw-line variant of `parseUnifiedLines` (spec-side reference). -/
def parseUnifiedLinesRaw (ls : List String) : List Hunk × List String :=
  goCtxRaw [] ls

/-- Raw-line variant of `goConflict` (spec-side reference). -/
def goConflictRaw : CMode → List String → List ConflictBlock
  | _, [] => []
  | .scan, l :: ls =>
    if isStartMarker l then goConflictRaw (.inc (markerText l) []) ls
    else goConflictRaw .scan ls
  | .inc mk acc, l :: ls =>
    if isSepLine l then goConflictRaw (.cur mk acc.reverse l []) ls
    else goConflictRaw (.inc mk (l :: acc)) ls
  | .cur mk inc sep acc, l :: ls =>
    if isEndMarker l then
      ⟨mk, inc, sep, acc.reverse, l⟩ :: goConflictRaw .scan ls
    else goConflictRaw (.cur mk inc sep (l :: acc)) ls

/-- Raw-line variant of `parseConflictLines` (spec-side reference). -/
def parseConflictLinesRaw (ls : List String) : List ConflictBlock :=
  goConflictRaw .scan ls

/-- Strip the stored lines of a hunk. -/
def hunkStrip (h : Hunk) : Hunk :=
  { h with lines := h.lines.map strip_line_number_prefix }

/-- Strip the stored incoming and current lines of a conflict block
(markers and separator are stored raw by the source parser). -/
def blockStrip (b : ConflictBlock) : ConflictBlock :=
  { b with incoming_lines := b.incoming_lines.map strip_line_number_prefix,
           current_lines := b.current_lines.map strip_line_number_prefix }

/-! ## Observational equivalence of hunk lines (for C10) -/

/-- Two diff lines are tag-equivalent when they carry the same leading
tag character (or are both empty) and, if that tag is `+`, the same
full text.  Context and deletion lines may differ arbitrarily in their
payload. -/
def LineTagEquiv (l1 l2 : String) : Prop :=
  headChar l1 = headChar l2 ∧ (headCharIs '+' l1 = true → l1 = l2)

/-- Two hunks are equivalent when their headers agree and their line
lists are pointwise tag-equivalent (with equal length; `getD` with the
empty-string default makes the quantifier total). -/
def HunkEquiv (h1 h2 : Hunk) : Prop :=
  h1.orig_start = h2.orig_start ∧ h1.orig_len = h2.orig_len ∧
  h1.new_start = h2.new_start ∧ h1.new_len = h2.new_len ∧
  h1.lines.length = h2.lines.length ∧
  ∀ i, LineTagEquiv (h1.lines.getD i "") (h2.lines.getD i "")

end DiffUtility

namespace DiffUtility

/-- C1.  The diff/apply round trip fails on the code: for the original
text `O = "a\nb\n"` and the modified text `M = "a\nb\nc\n"`, the
unified diff between `O` and `M` (exactly the text `difflib` produces,
headers, `@@ -1,2 +1,3 @@`, two context lines and the addition `+c`)
applied to a file containing `O` succeeds but leaves the file equal to
`O`, not `M`: the applicator exhausts the input before the trailing
addition line is ever replayed. -/
theorem C1_roundtrip_fails_on_code :
    replace_by_unified_diff "--- \n+++ \n@@ -1,2 +1,3 @@\n a\n b\n+c" "a\nb\n" =
      some "a\nb\n" ∧
    replace_by_unified_diff "--- \n+++ \n@@ -1,2 +1,3 @@\n a\n b\n+c" "a\nb\n" ≠
      some "a\nb\nc\n" := by
  decide

/-- C2.  The concrete unified scenario of the spec (and of the
function's own docstring): applying the given diff to a file containing
`"line1\nline2\nline3\n"` yields `"line1\nline2 changed\n"` — the
addition step consumes (and drops) the original `line3` — instead of
the documented `"line1\nline2 changed\nline3\n"`. -/
theorem C2_concrete_unified_scenario_on_code :
    replace_by_unified_diff
        "--- a/test.txt\n+++ b/test.txt\n@@ -1,3 +1,3 @@\n line1\n-line2\n+line2 changed\n line3\n"
        "line1\nline2\nline3\n" =
      some "line1\nline2 changed\n" ∧
    replace_by_unified_diff
        "--- a/test.txt\n+++ b/test.txt\n@@ -1,3 +1,3 @@\n line1\n-line2\n+line2 changed\n line3\n"
        "line1\nline2\nline3\n" ≠
      some "line1\nline2 changed\nline3\n" := by
  decide

/-- C3.  The concrete conflict scenario: the applicator never looks for
conflict markers in the file; it positionally replaces the first
`len(incoming_lines) = 2` file lines (which here are the opening marker
and `line1`) by the current side and copies everything else verbatim,
so the file becomes marker-laden garbage instead of the claimed
`"line1\nline2 changed\n"`. -/
theorem C3_concrete_conflict_scenario_on_code :
    replace_by_conflict_diff
        "<<<<<<< HEAD\nline1\nline2\n=======\nline1\nline2 changed\n>>>>>>> incoming\n"
        "<<<<<<< HEAD\nline1\nline2\n=======\nline1\nline2 changed\n>>>>>>> incoming\n" =
      "line1\nline2 changed\nline2\n=======\nline1\nline2 changed\n>>>>>>> incoming\n" ∧
    replace_by_conflict_diff
        "<<<<<<< HEAD\nline1\nline2\n=======\nline1\nline2 changed\n>>>>>>> incoming\n"
        "<<<<<<< HEAD\nline1\nline2\n=======\nline1\nline2 changed\n>>>>>>> incoming\n" ≠
      "line1\nline2 changed\n" := by
  decide

/-- C5.  A hunk consisting of a single addition line applied to
`"a\nb\n"` does not increase the line count: the addition consumes the
original first line, the file becomes `"x\nb\n"` and still has two
lines, not the three the claim requires. -/
theorem C5_pure_addition_does_not_grow_file :
    replace_by_unified_diff "@@ -1,1 +1,2 @@\n+x\n" "a\nb\n" = some "x\nb\n" ∧
    (splitKeepends "x\nb\n").length ≠ (splitKeepends "a\nb\n").length + 1 := by
  decide

/-- Every iteration of the unified applicator loop consumes exactly one
input line and emits at most one output line, so a successful run never
produces more lines than the input had. -/
theorem applyGo_length_le :
    ∀ (file : List String) (hs : List Hunk) (n i : Nat) (out : List String),
      applyGo hs n i file = some out → out.length ≤ file.length := by
  intro file
  induction file with
  | nil =>
    intro hs n i out h
    cases hs <;> simp only [applyGo, Option.some.injEq] at h <;> simp [← h]
  | cons line rest ih =>
    intro hs n i out h
    cases hs with
    | nil =>
      simp only [applyGo, Option.map_eq_some'] at h
      obtain ⟨o, ho, rfl⟩ := h
      simpa using ih _ _ _ _ ho
    | cons hd tl =>
      simp only [applyGo] at h
      split_ifs at h <;>
        first
          | (rw [Option.map_eq_some'] at h
             obtain ⟨o, ho, rfl⟩ := h
             simpa using ih _ _ _ _ ho)
          | exact le_trans (ih _ _ _ _ h) (by simp)

/-- C7 (counterexample).  After the only original line is consumed, the
unconsumed trailing addition line `+y` of the hunk is silently dropped:
the file stays `"x\n"` instead of becoming the claimed `"x\ny\n"`. -/
theorem C7_trailing_addition_dropped_cex :
    replace_by_unified_diff "@@ -1 +1,2 @@\n x\n+y\n" "x\n" = some "x\n" ∧
    replace_by_unified_diff "@@ -1 +1,2 @@\n x\n+y\n" "x\n" ≠ some "x\ny\n" := by
  decide

/-- C7 (amended).  Trailing unconsumed hunk lines — additions included
— are discarded, not appended: the applicator's output never has more
lines than the original file, because the streaming loop ends exactly
when the input lines are exhausted and nothing is flushed afterwards. -/
theorem C7_trailing_lines_never_appended (hunks : List Hunk) (file out : List String)
    (h : applyGo hunks 1 0 file = some out) : out.length ≤ file.length :=
  applyGo_length_le file hunks 1 0 out h

/-- Closed instance of `C7_trailing_lines_never_appended` at the
counterexample's input. -/
theorem C7_trailing_lines_never_appended_witness :
    applyGo [⟨1, 1, 1, 2, [" x\n", "+y\n"]⟩] 1 0 ["x\n"] = some ["x\n"] ∧
    (["x\n"] : List String).length ≤ (["x\n"] : List String).length :=
  ⟨by decide, C7_trailing_lines_never_appended [⟨1, 1, 1, 2, [" x\n", "+y\n"]⟩]
    ["x\n"] ["x\n"] (by decide)⟩

/-- With no pending conflict region, the loop copies every remaining
line unchanged. -/
theorem conflictLoop_nil_regions :
    ∀ (idx : Nat) (file : List String), conflictLoop [] idx file = file := by
  intro idx file
  induction file generalizing idx with
  | nil => rfl
  | cons l rest ih => simp [conflictLoop, ih]

/-- Walking one nonempty conflict region: the `d` incoming lines at the
head of the input are skipped, the region's `current_lines` are emitted
in their place, and the loop continues past the region. -/
theorem conflictLoop_skip :
    ∀ (d : Nat) (rs : List Region) (st en : Nat) (cur : List String)
      (idx : Nat) (file : List String),
      en = idx + d → 0 < d → st ≤ idx → d ≤ file.length →
      conflictLoop (⟨st, en, cur⟩ :: rs) idx file =
        cur ++ conflictLoop rs en (file.drop d) := by
  intro d
  induction d with
  | zero => intro rs st en cur idx file hen hd hst hlen; omega
  | succ d ih =>
    intro rs st en cur idx file hen hd hst hlen
    match file with
    | [] => simp at hlen
    | line :: rest =>
      have hin : (⟨st, en, cur⟩ : Region).incoming_start ≤ idx ∧
          idx < (⟨st, en, cur⟩ : Region).incoming_end := by
        refine ⟨hst, ?_⟩
        show idx < en
        omega
      rcases Nat.eq_zero_or_pos d with hd0 | hd0
      · subst hd0
        have hend : idx + 1 ≥ (⟨st, en, cur⟩ : Region).incoming_end := by
          show idx + 1 ≥ en
          omega
        simp only [conflictLoop, if_pos hin, if_pos hend]
        have hen1 : en = idx + 1 := by omega
        subst hen1
        simp
      · have hend : ¬ idx + 1 ≥ (⟨st, en, cur⟩ : Region).incoming_end := by
          show ¬ idx + 1 ≥ en
          omega
        have hlen' : d ≤ rest.length := by
          simp only [List.length_cons] at hlen
          omega
        simp only [conflictLoop, if_pos hin, if_neg hend]
        rw [ih rs st en cur (idx + 1) rest (by omega) hd0 (by omega) hlen']
        simp

/-- Back-to-back regions built from blocks whose incoming sides are all
nonempty replace the first `N` input lines (where `N` is the total
incoming length) by the concatenation of the blocks' current sides. -/
theorem conflictLoop_blocks :
    ∀ (blocks : List ConflictBlock) (pos : Nat) (file : List String),
      (∀ b ∈ blocks, b.incoming_lines ≠ []) →
      (blocks.map fun b => b.incoming_lines.length).sum ≤ file.length →
      conflictLoop (regionsOf blocks pos) pos file =
        (blocks.map ConflictBlock.current_lines).flatten ++
          file.drop ((blocks.map fun b => b.incoming_lines.length).sum) := by
  intro blocks
  induction blocks with
  | nil => intro pos file _ _; simp [regionsOf, conflictLoop_nil_regions]
  | cons b bs ih =>
    intro pos file hinc hlen
    have hb : 0 < b.incoming_lines.length :=
      List.length_pos.mpr (hinc b (by simp))
    have hlen1 : b.incoming_lines.length ≤ file.length := by
      simp only [List.map_cons, List.sum_cons] at hlen
      omega
    rw [regionsOf]
    rw [conflictLoop_skip b.incoming_lines.length
      (regionsOf bs (pos + b.incoming_lines.length)) pos
      (pos + b.incoming_lines.length) b.current_lines pos file rfl hb le_rfl hlen1]
    rw [ih (pos + b.incoming_lines.length) (file.drop b.incoming_lines.length)
      (fun x hx => hinc x (List.mem_cons_of_mem _ hx))
      (by
        simp only [List.length_drop, List.map_cons, List.sum_cons] at hlen ⊢
        omega)]
    rw [List.drop_drop]
    simp only [List.map_cons, List.sum_cons, List.flatten_cons, List.append_assoc]

/-- C9 (counterexample).  A conflict diff whose single block has an
empty incoming side refutes the claim: the block parses (`N = 0`, and
the file `"a\n"` has at least `N` lines), yet the applicator leaves the
file unchanged instead of producing the block's current side followed
by the remaining file lines — the empty region is never entered, so its
`current_lines` are never emitted. -/
theorem C9_empty_incoming_block_cex :
    parse_conflict_diff "<<<<<<< HEAD\n=======\nnew\n>>>>>>> x\n" ≠ [] ∧
    (((parse_conflict_diff "<<<<<<< HEAD\n=======\nnew\n>>>>>>> x\n").map
        fun b => b.incoming_lines.length).sum) = 0 ∧
    replace_by_conflict_diff "<<<<<<< HEAD\n=======\nnew\n>>>>>>> x\n" "a\n" = "a\n" ∧
    replace_by_conflict_diff "<<<<<<< HEAD\n=======\nnew\n>>>>>>> x\n" "a\n" ≠
      String.join
        (((parse_conflict_diff "<<<<<<< HEAD\n=======\nnew\n>>>>>>> x\n").map
            ConflictBlock.current_lines).flatten ++
          (splitKeepends "a\n").drop 0) := by
  decide

/-- C9 (amended).  For blocks all of whose incoming sides are nonempty,
the conflict applicator is purely positional: with `N` the sum of the
blocks' incoming lengths and a file of at least `N` lines, the output
is the concatenation of every block's `current_lines` in block order
followed by the file's lines from position `N` on — the first `N` file
lines are replaced regardless of their content, without any search for
conflict markers or comparison against `incoming_lines`. -/
theorem C9_conflict_apply_is_positional (blocks : List ConflictBlock) (content : String)
    (hne : blocks ≠ [])
    (hinc : ∀ b ∈ blocks, b.incoming_lines ≠ [])
    (hlen : (blocks.map fun b => b.incoming_lines.length).sum ≤
      (splitKeepends content).length) :
    applyConflictBlocks blocks content =
      String.join ((blocks.map ConflictBlock.current_lines).flatten ++
        (splitKeepends content).drop
          ((blocks.map fun b => b.incoming_lines.length).sum)) := by
  rw [applyConflictBlocks, if_neg hne,
    conflictLoop_blocks blocks 0 (splitKeepends content) hinc hlen]

/-- Closed instance of `C9_conflict_apply_is_positional`: one block
with incoming `l1` and current `c1` applied to `"p\nq\n"` replaces the
first line positionally, giving `"c1\nq\n"`. -/
theorem C9_conflict_apply_is_positional_witness :
    applyConflictBlocks [⟨"<<<<<<< HEAD", ["l1\n"], "=======\n", ["c1\n"], ">>>>>>> b\n"⟩]
        "p\nq\n" = "c1\nq\n" := by
  rw [C9_conflict_apply_is_positional
    [⟨"<<<<<<< HEAD", ["l1\n"], "=======\n", ["c1\n"], ">>>>>>> b\n"⟩] "p\nq\n"
    (by decide) (by decide) (by decide)]
  decide

/-- Lines that are not opening markers are skipped by the conflict
scanner. -/
theorem goConflict_scan_append :
    ∀ (pre rest : List String), (∀ l ∈ pre, isStartMarker l = false) →
      goConflict .scan (pre ++ rest) = goConflict .scan rest := by
  intro pre
  induction pre with
  | nil => intro rest _; rfl
  | cons l ls ih =>
    intro rest hpre
    have h0 : isStartMarker l = false := hpre l (by simp)
    simp only [List.cons_append, goConflict, h0, Bool.false_eq_true, if_false]
    exact ih rest (fun x hx => hpre x (by simp [hx]))

/-- If the separator never occurs in the remaining input, the scanner
stays in the incoming section until end-of-input and the partial block
is discarded. -/
theorem goConflict_inc_no_sep :
    ∀ (ls : List String), (∀ l ∈ ls, isSepLine l = false) →
      ∀ (mk : String) (acc : List String), goConflict (.inc mk acc) ls = [] := by
  intro ls
  induction ls with
  | nil => intro _ mk acc; rfl
  | cons l t ih =>
    intro hsep mk acc
    have h0 : isSepLine l = false := hsep l (by simp)
    simp only [goConflict, h0, Bool.false_eq_true, if_false]
    exact ih (fun x hx => hsep x (by simp [hx])) mk _

/-- If the closing marker never occurs in the remaining input, a block
opened before it is discarded no matter whether the separator has been
seen yet. -/
theorem goConflict_no_end :
    ∀ (ls : List String), (∀ l ∈ ls, isEndMarker l = false) →
      (∀ (mk : String) (acc : List String), goConflict (.inc mk acc) ls = []) ∧
      (∀ (mk : String) (inc : List String) (sep : String) (acc : List String),
        goConflict (.cur mk inc sep acc) ls = []) := by
  intro ls
  induction ls with
  | nil => intro _; exact ⟨fun _ _ => rfl, fun _ _ _ _ => rfl⟩
  | cons l t ih =>
    intro hend
    have h0 : isEndMarker l = false := hend l (by simp)
    have iht := ih (fun x hx => hend x (by simp [hx]))
    constructor
    · intro mk acc
      by_cases hs : isSepLine l = true
      · simp only [goConflict, hs, if_true]
        exact iht.2 mk acc.reverse l []
      · simp only [goConflict, hs, if_false]
        exact iht.1 mk _
    · intro mk inc sep acc
      simp only [goConflict, h0, Bool.false_eq_true, if_false]
      exact iht.2 mk inc sep _

/-- C6.  A diff whose (first) conflict opening marker is never followed
by a matching separator, or never followed by a closing marker, yields
no parsed block at all — the partially parsed block is discarded — and
applying such a diff leaves the file content unchanged (the zero-block
no-op success path). -/
theorem C6_malformed_conflict_block_dropped (d content : String)
    (pre post : List String) (m : String)
    (hsplit : splitKeepends d = pre ++ m :: post)
    (hpre : ∀ l ∈ pre, isStartMarker l = false)
    (hm : isStartMarker m = true)
    (hpost : (∀ l ∈ post, isSepLine l = false) ∨ (∀ l ∈ post, isEndMarker l = false)) :
    parse_conflict_diff d = [] ∧ replace_by_conflict_diff d content = content := by
  have hparse : parse_conflict_diff d = [] := by
    rw [parse_conflict_diff, parseConflictLines, hsplit,
      goConflict_scan_append pre (m :: post) hpre]
    simp only [goConflict, hm, if_true]
    rcases hpost with hsep | hend
    · exact goConflict_inc_no_sep post hsep _ _
    · exact (goConflict_no_end post hend).1 _ _
  refine ⟨hparse, ?_⟩
  rw [replace_by_conflict_diff, hparse, applyConflictBlocks, if_pos rfl]

/-- Closed instance of `C6_malformed_conflict_block_dropped`: an
opening marker followed by ordinary lines only. -/
theorem C6_malformed_conflict_block_dropped_witness :
    parse_conflict_diff "x\n<<<<<<< HEAD\nline\n" = [] ∧
    replace_by_conflict_diff "x\n<<<<<<< HEAD\nline\n" "f\n" = "f\n" :=
  C6_malformed_conflict_block_dropped "x\n<<<<<<< HEAD\nline\n" "f\n"
    ["x\n"] ["line\n"] "<<<<<<< HEAD\n" (by decide) (by decide) (by decide)
    (Or.inl (by decide))

/-- A single-character `startswith` test only looks at the head
character. -/
theorem headCharIs_congr (c : Char) (a b : String) (h : headChar a = headChar b) :
    headCharIs c a = headCharIs c b := by
  simp [headCharIs, h]

/-- The applicator loop is invariant under replacing the hunks by
tag-equivalent ones: every branching decision reads only the header
numbers, the line count, and the head character of the current hunk
line, and only `+`-tagged payloads are ever emitted. -/
theorem applyGo_tag_equiv :
    ∀ (file : List String) (hs1 hs2 : List Hunk) (n i : Nat),
      List.Forall₂ HunkEquiv hs1 hs2 →
      applyGo hs1 n i file = applyGo hs2 n i file := by
  intro file
  induction file with
  | nil =>
    intro hs1 hs2 n i _
    cases hs1 <;> cases hs2 <;> rfl
  | cons line rest ih =>
    intro hs1 hs2 n i hrel
    cases hrel with
    | nil => rfl
    | @cons h1 h2 tl1 tl2 hh htl =>
      obtain ⟨e1, e2, e3, e4, elen, hline⟩ := hh
      have hcons : List.Forall₂ HunkEquiv (h1 :: tl1) (h2 :: tl2) :=
        List.Forall₂.cons ⟨e1, e2, e3, e4, elen, hline⟩ htl
      have hhd : headChar (h1.lines.getD i "") = headChar (h2.lines.getD i "") :=
        (hline i).1
      simp only [applyGo]
      rw [(headCharIs_congr ' ' _ _ hhd).symm, (headCharIs_congr '-' _ _ hhd).symm,
        (headCharIs_congr '+' _ _ hhd).symm, ← elen, ← e1, ← e2]
      split_ifs with hc hsp hfin hmn hpl hge
      · rw [ih tl1 tl2 (n + 1) 0 htl]
      · rw [ih (h1 :: tl1) (h2 :: tl2) (n + 1) (i + 1) hcons]
      · exact ih (h1 :: tl1) (h2 :: tl2) n (i + 1) hcons
      · rw [← (hline i).2 hpl, ih (h1 :: tl1) (h2 :: tl2) n (i + 1) hcons]
      · rfl
      · rw [ih tl1 tl2 (n + 1) 0 htl]
      · rw [ih (h1 :: tl1) (h2 :: tl2) (n + 1) i hcons]

/-- C10.  The unified applicator's result depends on a hunk's lines
only through their leading tag character and, for addition lines, the
added text: applying two parsed diffs with identical headers and
identical per-line tags — differing only in the payload of context and
deletion lines — to the same file yields the same result (both the
success/failure outcome and the output content).  In particular the
applicator never compares context or deletion payloads against the
file's actual lines, so a mismatching diff is not detected. -/
theorem C10_payloads_of_ctx_del_lines_ignored (hs1 hs2 : List Hunk)
    (file : List String) (h : List.Forall₂ HunkEquiv hs1 hs2) :
    applyGo hs1 1 0 file = applyGo hs2 1 0 file :=
  applyGo_tag_equiv file hs1 hs2 1 0 h

/-- Closed instance of `C10_payloads_of_ctx_del_lines_ignored`: two
hunks whose context and deletion payloads disagree with each other (and
with the file) apply identically. -/
theorem C10_payloads_of_ctx_del_lines_ignored_witness :
    applyGo [⟨1, 2, 1, 2, [" a\n", "-b\n", "+c\n"]⟩] 1 0 ["p\n", "q\n", "r\n"] =
      applyGo [⟨1, 2, 1, 2, [" X\n", "-Y\n", "+c\n"]⟩] 1 0 ["p\n", "q\n", "r\n"] :=
  C10_payloads_of_ctx_del_lines_ignored
    [⟨1, 2, 1, 2, [" a\n", "-b\n", "+c\n"]⟩]
    [⟨1, 2, 1, 2, [" X\n", "-Y\n", "+c\n"]⟩]
    ["p\n", "q\n", "r\n"]
    (by
      refine List.Forall₂.cons ⟨rfl, rfl, rfl, rfl, rfl, ?_⟩ List.Forall₂.nil
      intro i
      match i with
      | 0 => exact ⟨by decide, fun h => absurd h (by decide)⟩
      | 1 => exact ⟨by decide, fun h => absurd h (by decide)⟩
      | 2 => exact ⟨by decide, fun _ => rfl⟩
      | n + 3 => exact ⟨rfl, fun _ => rfl⟩)

/-- `spanP` splits a list exactly at the boundary between a satisfying
run and a remainder whose head fails the predicate. -/
theorem spanP_append_stop (p : Char → Bool) :
    ∀ (xs ys : List Char), (∀ c ∈ xs, p c = true) →
      (∀ y, ys.head? = some y → p y = false) →
      spanP p (xs ++ ys) = (xs, ys) := by
  intro xs
  induction xs with
  | nil =>
    intro ys _ hy
    cases ys with
    | nil => rfl
    | cons y t =>
      have h0 := hy y rfl
      simp [spanP, h0]
  | cons x xs ih =>
    intro ys hx hy
    have hpx : p x = true := hx x (by simp)
    simp [spanP, hpx, ih ys (fun c hc => hx c (by simp [hc])) hy]

/-- Whitespace characters are not digits. -/
theorem isPyWs_not_digit (c : Char) (h : isPyWs c = true) : isAsciiDigit c = false := by
  simp only [isPyWs, Bool.or_eq_true, decide_eq_true_eq] at h
  rcases h with ((((rfl | rfl) | rfl) | rfl) | rfl) | rfl <;> decide

/-- A line of the grammar `^\d+\s*\|\s?` is stripped to the remainder
after the `|` with at most one whitespace character consumed. -/
theorem strip_grammar_match (s : String) (ds ws r : List Char)
    (hdata : s.data = ds ++ (ws ++ '|' :: r)) (h1 : ds ≠ [])
    (h2 : ∀ c ∈ ds, isAsciiDigit c = true) (h3 : ∀ c ∈ ws, isPyWs c = true) :
    strip_line_number_prefix s = String.mk (dropOneWs r) := by
  have hspan1 : spanP isAsciiDigit (ds ++ (ws ++ '|' :: r)) = (ds, ws ++ '|' :: r) := by
    refine spanP_append_stop isAsciiDigit ds (ws ++ '|' :: r) h2 ?_
    intro y hy
    cases ws with
    | nil =>
      simp only [List.nil_append, List.head?_cons, Option.some.injEq] at hy
      subst hy
      decide
    | cons w t =>
      simp only [List.cons_append, List.head?_cons, Option.some.injEq] at hy
      subst hy
      exact isPyWs_not_digit w (h3 w (by simp))
  have hspan2 : spanP isPyWs (ws ++ '|' :: r) = (ws, '|' :: r) := by
    refine spanP_append_stop isPyWs ws ('|' :: r) h3 ?_
    intro y hy
    simp only [List.head?_cons, Option.some.injEq] at hy
    subst hy
    decide
  have hde : ds.isEmpty = false := by
    cases ds with
    | nil => exact absurd rfl h1
    | cons d t => rfl
  rw [ strip_line_number_prefix, hdata, hspan1]
  simp only [hde, Bool.false_eq_true, if_false, hspan2, List.head?_cons, List.tail_cons,
    if_pos rfl, if_true]

/-- A line not matching the prefix grammar is left unaltered. -/
theorem strip_no_match (s : String) (h : hasLineNumberTag s = false) :
    strip_line_number_prefix s = s := by
  rw [ strip_line_number_prefix]
  rw [hasLineNumberTag] at h
  rcases hsp : spanP isAsciiDigit s.data with ⟨ds, r1⟩
  rw [hsp] at h
  by_cases hde : ds.isEmpty
  · simp [hde]
  · simp only [hde, Bool.false_eq_true, if_false] at h ⊢
    simp only [decide_eq_false_iff_not] at h
    rw [if_neg h]

/-- The unified hunk collector factors through its raw variant: the
stored body lines are exactly the raw lines with the prefix stripped. -/
theorem goHunks_strip_raw :
    ∀ (ls : List String) (h : Nat × Nat × Nat × Nat) (acc : List String),
      goHunks h (acc.map strip_line_number_prefix) ls =
        (goHunksRaw h acc ls).map hunkStrip := by
  intro ls
  induction ls with
  | nil =>
    intro h acc
    simp only [goHunks, goHunksRaw, List.map_cons, List.map_nil]
    congr 1
    simp [hunkStrip, ← List.map_reverse]
  | cons l t ih =>
    intro h acc
    cases hm : matchHunkHeader l with
    | some h2 =>
      have htail := ih h2 []
      simp only [List.map_nil] at htail
      simp only [goHunks, goHunksRaw, hm, List.map_cons, htail]
      congr 1
      simp [hunkStrip, ← List.map_reverse]
    | none =>
      simp only [goHunks, goHunksRaw, hm]
      exact ih h (l :: acc)

/-- The unified context collector factors through its raw variant. -/
theorem goCtx_strip_raw :
    ∀ (ls : List String) (acc : List String),
      goCtx (acc.map strip_line_number_prefix) ls =
        ((goCtxRaw acc ls).1.map hunkStrip,
         (goCtxRaw acc ls).2.map strip_line_number_prefix) := by
  intro ls
  induction ls with
  | nil =>
    intro acc
    simp only [goCtx, goCtxRaw, List.map_nil, Prod.mk.injEq]
    exact ⟨trivial, (List.map_reverse _ _).symm⟩
  | cons l t ih =>
    intro acc
    cases hm : matchHunkHeader l with
    | some h =>
      have hbody := goHunks_strip_raw t h []
      simp only [List.map_nil] at hbody
      simp only [goCtx, goCtxRaw, hm, hbody, Prod.mk.injEq]
      exact ⟨trivial, (List.map_reverse _ _).symm⟩
    | none =>
      simp only [goCtx, goCtxRaw, hm]
      exact ih (l :: acc)

/-- The conflict scanner factors through its raw variant, in every
scanner state. -/
theorem goConflict_strip_raw :
    ∀ (ls : List String),
      (goConflict .scan ls = (goConflictRaw .scan ls).map blockStrip) ∧
      (∀ (mk : String) (acc : List String),
        goConflict (.inc mk (acc.map strip_line_number_prefix)) ls =
          (goConflictRaw (.inc mk acc) ls).map blockStrip) ∧
      (∀ (mk : String) (inc : List String) (sep : String) (acc : List String),
        goConflict
            (.cur mk (inc.map strip_line_number_prefix) sep
              (acc.map strip_line_number_prefix)) ls =
          (goConflictRaw (.cur mk inc sep acc) ls).map blockStrip) := by
  intro ls
  induction ls with
  | nil => exact ⟨rfl, fun _ _ => rfl, fun _ _ _ _ => rfl⟩
  | cons l t ih =>
    obtain ⟨ih1, ih2, ih3⟩ := ih
    refine ⟨?_, ?_, ?_⟩
    · by_cases hs : isStartMarker l = true
      · simp only [goConflict, goConflictRaw, hs, if_true]
        exact ih2 (markerText l) []
      · simp only [goConflict, goConflictRaw, hs, Bool.false_eq_true, if_false]
        exact ih1
    · intro mk acc
      by_cases hs : isSepLine l = true
      · simp only [goConflict, goConflictRaw, hs, if_true]
        rw [(List.map_reverse strip_line_number_prefix acc).symm]
        exact ih3 mk acc.reverse l []
      · simp only [goConflict, goConflictRaw, hs, Bool.false_eq_true, if_false]
        exact ih2 mk (l :: acc)
    · intro mk inc sep acc
      by_cases he : isEndMarker l = true
      · simp only [goConflict, goConflictRaw, he, if_true, List.map_cons, ih1]
        congr 1
        simp [blockStrip, ← List.map_reverse]
      · simp only [goConflict, goConflictRaw, he, Bool.false_eq_true, if_false]
        exact ih3 mk inc sep (l :: acc)

/-- C8.  Line-number-prefix stripping is applied exactly once,
uniformly, to every line the parsers collect: a line of the grammar
`^\d+\s*\|\s?` loses exactly that prefix (the rest of the line,
including further leading whitespace, is intact), a line without the
prefix is stored unaltered, and both the unified parser (hunk bodies
and leading context) and the conflict parser (incoming and current
lines) store exactly the stripped form of each raw collected line while
their line-grouping structure is independent of the stripping. -/
theorem C8_line_number_tag_stripped_uniformly :
    (∀ (s : String) (ds ws r : List Char), s.data = ds ++ (ws ++ '|' :: r) →
      ds ≠ [] → (∀ c ∈ ds, isAsciiDigit c = true) → (∀ c ∈ ws, isPyWs c = true) →
      strip_line_number_prefix s = String.mk (dropOneWs r)) ∧
    (∀ s : String, hasLineNumberTag s = false → strip_line_number_prefix s = s) ∧
    (∀ ls : List String,
      parseUnifiedLines ls =
        ((parseUnifiedLinesRaw ls).1.map hunkStrip,
         (parseUnifiedLinesRaw ls).2.map strip_line_number_prefix)) ∧
    (∀ ls : List String,
      parseConflictLines ls = (parseConflictLinesRaw ls).map blockStrip) := by
  refine ⟨strip_grammar_match, strip_no_match, ?_, ?_⟩
  · intro ls
    exact goCtx_strip_raw ls []
  · intro ls
    exact (goConflict_strip_raw ls).1

/-- Closed instance of `C8_line_number_tag_stripped_uniformly`:
stripping `12 |` from a prefixed line and leaving an unprefixed line
alone. -/
theorem C8_line_number_tag_stripped_uniformly_witness :
    strip_line_number_prefix "12 |x" = String.mk (dropOneWs ['x']) ∧
    strip_line_number_prefix "beta" = "beta" :=
  ⟨C8_line_number_tag_stripped_uniformly.1 "12 |x" ['1', '2'] [' '] ['x']
      (by decide) (by decide) (by decide) (by decide),
   C8_line_number_tag_stripped_uniformly.2.1 "beta" (by decide)⟩

end DiffUtility
